import Mathlib

/-!
Shallow embedding of the LSB steganography payload codec implemented in
`steganography_tool.py` (the delimiter-framed codec that claims C1-C10 target),
together with the extension handling of `steganography_hide.py`.

Modelling conventions:
* a ChannelBuffer is a `List Nat` of per-channel byte values (flattened pixel
  data, `np.array(list(img.getdata())).flatten()`);
* Python `bytes` values are `List Nat` with entries below 256;
* Python exceptions raised inside the codec are an explicit `Except` error
  value, using the error names of the specification (`UnsupportedFormat`,
  `CapacityExceeded`, `TruncatedData`); the public methods catch every
  exception and turn it into `None` / `False`, which the `..._caught`
  wrappers mirror;
* image decoding/encoding and file I/O are the external collaborators of the
  spec and stay outside the model: the codec operates on the already-flattened
  channel buffer and on the already-read secret-file bytes.
-/

set_option maxRecDepth 10000

namespace Stego

/-- `self.delimiter = b'END_OF_FILE'` (steganography_tool.py line 10): the
ASCII bytes of END_OF_FILE, 11 bytes. -/
def delimiter : List Nat := [69, 78, 68, 95, 79, 70, 95, 70, 73, 76, 69]

/-- Failure modes of the codec, named as in the specification.  In the source
they are `raise ValueError(...)` sites (or an early `return False`) inside the
`try` blocks of the public methods.  `CapacityExceeded` carries the required
and available byte counts, as printed by `hide_data` lines 85-88. -/
inductive StegoError where
  | UnsupportedFormat : StegoError
  | CapacityExceeded : Nat → Nat → StegoError
  | TruncatedData : StegoError
deriving DecidableEq

/-- The derived capacity snapshot returned by
`SteganographyTool.calculate_capacity` (steganography_tool.py lines 12-44).
The image-container fields of the Python dict (`width`, `height`, `format`,
`mode`) belong to the external image collaborator and are omitted; the pixel
count stands in for `width * height`.  `usable_bytes` is an integer because
Python subtraction may make it negative. -/
structure Capacity where
  pixels : Nat
  channels : Nat
  total_bits : Nat
  max_bytes : Nat
  usable_bytes : Int
deriving DecidableEq

/-- `calculate_capacity` (steganography_tool.py lines 12-44), pure core:
rejects channel counts other than 3 or 4 (line 19-20), then computes
`total_bits = n_pixels * n_channels`, `max_bytes = total_bits // 8`,
`usable_bytes = max_bytes - (2 + len(self.delimiter))`. -/
def calculate_capacity (channels pixels : Nat) : Except StegoError Capacity :=
  if channels = 3 ∨ channels = 4 then
    Except.ok ⟨pixels, channels, pixels * channels, pixels * channels / 8,
      (pixels * channels / 8 : Nat) - (2 + (delimiter.length : Int))⟩
  else
    Except.error StegoError.UnsupportedFormat

/-- `format(byte, '08b')` for a byte value below 256: the eight binary digits,
most-significant bit first (steganography_tool.py line 96). -/
def bitsOfByte (b : Nat) : List Nat :=
  [b / 128 % 2, b / 64 % 2, b / 32 % 2, b / 16 % 2,
   b / 8 % 2, b / 4 % 2, b / 2 % 2, b % 2]

/-- `''.join(format(byte, '08b') for byte in data)` (steganography_tool.py
line 96): the payload expanded into a flat bit sequence, MSB first per byte. -/
def bitsOfBytes : List Nat → List Nat
  | [] => []
  | b :: rest => bitsOfByte b ++ bitsOfBytes rest

/-- `int(s, 2)` on a string of 0/1 digits (steganography_tool.py line 181). -/
def byteOfBits (bits : List Nat) : Nat :=
  bits.foldl (fun acc b => 2 * acc + b) 0

/-- The bits-to-bytes regrouping loop of `extract_data` (steganography_tool.py
lines 178-182): `for i in range(0, len(bits), 8): if i + 8 <= len(bits):
append(int(bits[i:i+8], 2))` — eight bits per byte, MSB first, a trailing
group of fewer than eight bits is dropped. -/
def bytesOfBits : List Nat → List Nat
  | b0 :: b1 :: b2 :: b3 :: b4 :: b5 :: b6 :: b7 :: rest =>
      byteOfBits [b0, b1, b2, b3, b4, b5, b6, b7] :: bytesOfBits rest
  | _ => []

/-- `_bits_to_bytes` (steganography_utils.py lines 65-66, used by
steganography_extract.py): `bytes(int(bits[i:i+8], 2) for i in
range(0, len(bits), 8))`.  Unlike the guarded loop of
`SteganographyTool.extract_data`, it has no `i + 8 <= len(bits)` check: a
trailing group of fewer than eight bits is converted into a short final byte
instead of being discarded. -/
def bits_to_bytes_utils : List Nat → List Nat
  | [] => []
  | b0 :: b1 :: b2 :: b3 :: b4 :: b5 :: b6 :: b7 :: rest =>
      byteOfBits [b0, b1, b2, b3, b4, b5, b6, b7] :: bits_to_bytes_utils rest
  | short => [byteOfBits short]

/-- One LSB substitution `flatten_img[i] = (flatten_img[i] & ~1) | bit`
(steganography_tool.py line 110) for `bit ∈ {0, 1}`: `v & ~1` clears the
least-significant bit, which over naturals is `2 * (v / 2)`, and or-ing a
single bit into a value whose LSB is clear adds it. -/
def setLsb (v bit : Nat) : Nat := 2 * (v / 2) + bit

/-- The embedding loop of `hide_data` (steganography_tool.py lines 106-113):
replace the LSB of each buffer element with the next data bit; untouched
elements remain once the bits are exhausted, and the loop stops at the end of
the buffer. -/
def embedBits : List Nat → List Nat → List Nat
  | buf, [] => buf
  | [], _ :: _ => []
  | v :: buf, bit :: bits => setLsb v bit :: embedBits buf bits

/-- `struct.pack('>H', n)` (steganography_tool.py line 78): the unsigned
16-bit big-endian encoding, two bytes; `struct.pack` itself raises for
`n > 65535`, which theorems record as a hypothesis. -/
def packU16BE (n : Nat) : List Nat := [n / 256 % 256, n % 256]

/-- `data_to_hide = ext_len_bytes + file_ext + secret_data + self.delimiter`
(steganography_tool.py line 81), the frame of spec section 3, with the
extension already encoded to bytes. -/
def build_payload (fileBytes extBytes : List Nat) : List Nat :=
  packU16BE extBytes.length ++ extBytes ++ fileBytes ++ delimiter

/-- The embed operation of `hide_data` as a state transformer over the channel
buffer (steganography_tool.py lines 84-113): first component is the outcome,
second the buffer state after the call.  The capacity precondition
`len(data_to_hide) > capacity['max_bytes']` (line 84, with
`max_bytes = len(buffer) // 8` since the buffer is the flattened
pixels-times-channels array) is checked before the write loop runs, so on
failure the buffer is returned as it was. -/
def embedRun (buffer payload : List Nat) : Except StegoError Unit × List Nat :=
  if payload.length > buffer.length / 8 then
    (Except.error (StegoError.CapacityExceeded payload.length (buffer.length / 8)), buffer)
  else
    (Except.ok (), embedBits buffer (bitsOfBytes payload))

/-- `embed(buffer, payload)` of spec section 4.3, the functional view of
steganography_tool.py lines 84-113. -/
def embed (buffer payload : List Nat) : Except StegoError (List Nat) :=
  match embedRun buffer payload with
  | (Except.ok _, b) => Except.ok b
  | (Except.error e, _) => Except.error e

/-- The pure core of `hide_data` (steganography_tool.py lines 46-135):
capacity analysis on the image geometry (line 50), then the capacity check
against `capacity['max_bytes']` (lines 84-93), then the LSB write loop
(lines 106-113) on the flattened buffer. -/
def hide_data (channels pixels : Nat) (buffer fileBytes extBytes : List Nat) :
    Except StegoError (List Nat) :=
  match calculate_capacity channels pixels with
  | Except.error e => Except.error e
  | Except.ok cap =>
    let payload := build_payload fileBytes extBytes
    if payload.length > cap.max_bytes then
      Except.error (StegoError.CapacityExceeded payload.length cap.max_bytes)
    else
      Except.ok (embedBits buffer (bitsOfBytes payload))

/-- `bytes.find(needle)`: index of the first occurrence of `needle` as a
contiguous block, `none` when absent (an occurrence must fit entirely inside
the haystack, as in Python). -/
def findOcc : List Nat → List Nat → Option Nat
  | [], needle => if needle.isPrefixOf ([] : List Nat) then some 0 else none
  | h :: t, needle =>
    if needle.isPrefixOf (h :: t) then some 0
    else (findOcc t needle).map (fun k => k + 1)

/-- `bytes.find(needle, start)` (steganography_tool.py line 214): first
occurrence at an index at or after `start`, `none` standing for Python's
`-1`. -/
def findFrom (hay needle : List Nat) (start : Nat) : Option Nat :=
  (findOcc (hay.drop start) needle).map (fun k => k + start)

/-- Python slice `l[a:b]` for `a ≤ b`. -/
def slice (l : List Nat) (a b : Nat) : List Nat := (l.drop a).take (b - a)

/-- The pure core of `extract_data` (steganography_tool.py lines 141-255) on
the flattened channel buffer: pass 1 reads every LSB in order (lines 168-170),
pass 2 regroups the bits into bytes (lines 178-182), then the frame is parsed:
fewer than 2 recovered bytes raises (line 194-195), `ext_len` is the
big-endian value of the first two bytes (line 197), fewer than `2 + ext_len`
bytes raises (lines 204-205), the extension is bytes `[2, 2+ext_len)`
(line 207; the lossy UTF-8 decode to a string is the identity on the byte
content and is kept at byte level), and the file data runs from
`data_start = 2 + ext_len` to the first delimiter occurrence found at or
after `data_start` (lines 211-223), all remaining bytes when the delimiter is
absent (line 219).  Returns the `(file_data, extension)` pair of spec
section 4.4. -/
def extract_data (buffer : List Nat) : Except StegoError (List Nat × List Nat) :=
  let extractedBits := buffer.map (fun v => v % 2)
  let extractedBytes := bytesOfBits extractedBits
  if extractedBytes.length < 2 then
    Except.error StegoError.TruncatedData
  else
    let extLen := 256 * extractedBytes.getD 0 0 + extractedBytes.getD 1 0
    if extractedBytes.length < 2 + extLen then
      Except.error StegoError.TruncatedData
    else
      let dataStart := 2 + extLen
      let fileExt := slice extractedBytes 2 dataStart
      match findFrom extractedBytes delimiter dataStart with
      | none => Except.ok (extractedBytes.drop dataStart, fileExt)
      | some p => Except.ok (slice extractedBytes dataStart p, fileExt)

/-- The public `calculate_capacity` with its catch-all exception handler
(steganography_tool.py lines 42-44): any internal error becomes `None`. -/
def calculate_capacity_caught (channels pixels : Nat) : Option Capacity :=
  match calculate_capacity channels pixels with
  | Except.ok v => some v
  | Except.error _ => none

/-- The public `hide_data` with its catch-all exception handler
(steganography_tool.py lines 137-139): `True` on success, `False` on any
internal error. -/
def hide_data_caught (channels pixels : Nat) (buffer fileBytes extBytes : List Nat) : Bool :=
  match hide_data channels pixels buffer fileBytes extBytes with
  | Except.ok _ => true
  | Except.error _ => false

/-- The public `extract_data` with its catch-all exception handler
(steganography_tool.py lines 257-261): any internal error becomes `None`. -/
def extract_data_caught (buffer : List Nat) : Option (List Nat × List Nat) :=
  match extract_data buffer with
  | Except.ok v => some v
  | Except.error _ => none

/-- `str.rfind(c)` on a list of characters: the highest index holding `c`,
`none` standing for Python's `-1`. -/
def rfindChar : List Char → Char → Option Nat
  | [], _ => none
  | a :: t, c =>
    match rfindChar t c with
    | some r => some (r + 1)
    | none => if a = c then some 0 else none

/-- `os.path.splitext(path)[1]` (posix rules, as used on the secret file path
by both embed implementations): the extension including its leading dot, the
empty list when the basename has no extension.  Mirrors CPython's
`genericpath._splitext`: split at the last `.` provided it lies after the
last `/` and the basename part before it is not made of dots only. -/
def splitextExt (p : List Char) : List Char :=
  match rfindChar p '.' with
  | none => []
  | some d =>
    let fstart : Nat :=
      match rfindChar p '/' with
      | none => 0
      | some s => s + 1
    if fstart ≤ d then
      if (List.range' fstart (d - fstart)).any (fun i => p.getD i ' ' != '.') then
        p.drop d
      else []
    else []

/-- The extension characters `steganography_hide.py` line 9 puts in the
payload: `os.path.splitext(file_path)[1][1:]` — the leading dot stripped. -/
def hide_ext (p : List Char) : List Char := (splitextExt p).drop 1

/-- The extension characters `SteganographyTool.hide_data` line 76 puts in
the payload: `os.path.splitext(secret_file_path)[1]` — dot not stripped. -/
def tool_ext (p : List Char) : List Char := splitextExt p

/-- UTF-8 encoding of one unicode scalar value (`str.encode('utf-8')`,
per code point). -/
def utf8EncodeChar (c : Nat) : List Nat :=
  if c < 128 then [c]
  else if c < 2048 then [192 + c / 64, 128 + c % 64]
  else if c < 65536 then [224 + c / 4096, 128 + c / 64 % 64, 128 + c % 64]
  else [240 + c / 262144, 128 + c / 4096 % 64, 128 + c / 64 % 64, 128 + c % 64]

/-- `str.encode('utf-8')` on a list of characters. -/
def utf8Encode : List Char → List Nat
  | [] => []
  | c :: rest => utf8EncodeChar c.toNat ++ utf8Encode rest

/-! ### Facts about the bit-level codec -/

theorem length_bitsOfByte (b : Nat) : (bitsOfByte b).length = 8 := rfl

theorem length_bitsOfBytes (p : List Nat) : (bitsOfBytes p).length = 8 * p.length := by
  induction p with
  | nil => rfl
  | cons b t ih =>
    simp only [bitsOfBytes, List.length_append, length_bitsOfByte, ih, List.length_cons]
    omega

theorem bitsOfBytes_lt_two (p : List Nat) : ∀ b ∈ bitsOfBytes p, b < 2 := by
  induction p with
  | nil => simp [bitsOfBytes]
  | cons b t ih =>
    intro x hx
    simp only [bitsOfBytes] at hx
    rcases List.mem_append.mp hx with h | h
    · simp only [bitsOfByte, List.mem_cons, List.not_mem_nil, or_false] at h
      rcases h with h|h|h|h|h|h|h|h <;> omega
    · exact ih x h

theorem byteOfBits_bitsOfByte (b : Nat) (hb : b < 256) : byteOfBits (bitsOfByte b) = b := by
  simp only [byteOfBits, bitsOfByte, List.foldl]
  omega

theorem bytesOfBits_cons8 (b0 b1 b2 b3 b4 b5 b6 b7 : Nat) (rest : List Nat) :
    bytesOfBits (b0 :: b1 :: b2 :: b3 :: b4 :: b5 :: b6 :: b7 :: rest) =
      byteOfBits [b0, b1, b2, b3, b4, b5, b6, b7] :: bytesOfBits rest := rfl

theorem bytesOfBits_small (bits : List Nat) (h : bits.length < 8) : bytesOfBits bits = [] := by
  rcases bits with _|⟨a,_|⟨b,_|⟨c,_|⟨d,_|⟨e,_|⟨f,_|⟨g,_|⟨i,t⟩⟩⟩⟩⟩⟩⟩⟩ <;>
    first
    | rfl
    | (simp only [List.length_cons] at h; omega)

theorem length_bytesOfBits (bits : List Nat) : (bytesOfBits bits).length = bits.length / 8 := by
  induction bits using bytesOfBits.induct with
  | case1 b0 b1 b2 b3 b4 b5 b6 b7 rest ih =>
    simp only [bytesOfBits, List.length_cons, ih]
    omega
  | case2 bits h =>
    have h8 : bits.length < 8 := by
      rcases bits with _|⟨a,_|⟨b,_|⟨c,_|⟨d,_|⟨e,_|⟨f,_|⟨g,_|⟨i,t⟩⟩⟩⟩⟩⟩⟩⟩ <;> simp_all
      exact absurd rfl (h a b c d e f g i t rfl rfl rfl rfl rfl rfl rfl rfl)
    rw [bytesOfBits_small bits h8, List.length_nil]
    omega

theorem bytesOfBits_bitsOfByte (b : Nat) (hb : b < 256) (rest : List Nat) :
    bytesOfBits (bitsOfByte b ++ rest) = b :: bytesOfBits rest := by
  have h := byteOfBits_bitsOfByte b hb
  simp only [bitsOfByte, List.cons_append, List.nil_append] at h ⊢
  rw [bytesOfBits_cons8, h]

theorem bytesOfBits_append (p rest : List Nat) (hp : ∀ b ∈ p, b < 256) :
    bytesOfBits (bitsOfBytes p ++ rest) = p ++ bytesOfBits rest := by
  induction p with
  | nil => simp [bitsOfBytes]
  | cons b t ih =>
    simp only [bitsOfBytes, List.append_assoc]
    rw [bytesOfBits_bitsOfByte b (hp b (by simp)),
      ih (fun x hx => hp x (List.mem_cons_of_mem b hx))]
    rfl

theorem bits_to_bytes_utils_cons8 (b0 b1 b2 b3 b4 b5 b6 b7 : Nat) (rest : List Nat) :
    bits_to_bytes_utils (b0 :: b1 :: b2 :: b3 :: b4 :: b5 :: b6 :: b7 :: rest) =
      byteOfBits [b0, b1, b2, b3, b4, b5, b6, b7] :: bits_to_bytes_utils rest := rfl

theorem bits_to_bytes_utils_small (bits : List Nat) (h0 : bits ≠ []) (h : bits.length < 8) :
    bits_to_bytes_utils bits = [byteOfBits bits] := by
  rcases bits with _|⟨a,_|⟨b,_|⟨c,_|⟨d,_|⟨e,_|⟨f,_|⟨g,_|⟨i,t⟩⟩⟩⟩⟩⟩⟩⟩ <;>
    first
    | rfl
    | (exact absurd rfl h0)
    | (simp only [List.length_cons] at h; omega)

/-- Characterization of the utils helper: it produces the guarded loop's
bytes and, when the bit count is not a multiple of eight, one extra short
final byte made from the trailing remainder. -/
theorem bits_to_bytes_utils_spec (bits : List Nat) :
    bits_to_bytes_utils bits =
      bytesOfBits bits ++
        (if bits.length % 8 = 0 then []
         else [byteOfBits (bits.drop (8 * (bits.length / 8)))]) := by
  induction bits using bytesOfBits.induct with
  | case1 b0 b1 b2 b3 b4 b5 b6 b7 rest ih =>
    rw [bits_to_bytes_utils_cons8, bytesOfBits_cons8, ih]
    simp only [List.length_cons]
    have hmod : (rest.length + 1 + 1 + 1 + 1 + 1 + 1 + 1 + 1) % 8 = rest.length % 8 := by
      omega
    have hdiv : (rest.length + 1 + 1 + 1 + 1 + 1 + 1 + 1 + 1) / 8 = rest.length / 8 + 1 := by
      omega
    rw [hmod, hdiv]
    have hdrop : (b0 :: b1 :: b2 :: b3 :: b4 :: b5 :: b6 :: b7 :: rest).drop
        (8 * (rest.length / 8 + 1)) = rest.drop (8 * (rest.length / 8)) := by
      have h8 : 8 * (rest.length / 8 + 1) = 8 + 8 * (rest.length / 8) := by ring
      rw [h8, ← List.drop_drop]
      rfl
    rw [hdrop, List.cons_append]
  | case2 bits h =>
    have h8 : bits.length < 8 := by
      rcases bits with _|⟨a,_|⟨b,_|⟨c,_|⟨d,_|⟨e,_|⟨f,_|⟨g,_|⟨i,t⟩⟩⟩⟩⟩⟩⟩⟩ <;> simp_all
      exact absurd rfl (h a b c d e f g i t rfl rfl rfl rfl rfl rfl rfl rfl)
    by_cases h0 : bits = []
    · subst h0
      rfl
    · rw [bits_to_bytes_utils_small bits h0 h8, bytesOfBits_small bits h8]
      have hne : bits.length % 8 ≠ 0 := by
        have hnz : bits.length ≠ 0 := fun hl => h0 (List.length_eq_zero.mp hl)
        omega
      rw [if_neg hne]
      have hz : 8 * (bits.length / 8) = 0 := by omega
      rw [hz, List.drop_zero, List.nil_append]

/-! ### Facts about the embedding loop -/

theorem length_embedBits (buf bits : List Nat) : (embedBits buf bits).length = buf.length := by
  induction buf generalizing bits with
  | nil => cases bits <;> rfl
  | cons v t ih =>
    cases bits with
    | nil => rfl
    | cons b bs => simp only [embedBits, List.length_cons, ih]

theorem getD_embedBits_lt (buf bits : List Nat) (i : Nat)
    (h1 : i < bits.length) (h2 : bits.length ≤ buf.length) :
    (embedBits buf bits).getD i 0 = setLsb (buf.getD i 0) (bits.getD i 0) := by
  induction buf generalizing bits i with
  | nil =>
    simp only [List.length_nil, Nat.le_zero, List.length_eq_zero] at h2
    subst h2
    simp at h1
  | cons v t ih =>
    cases bits with
    | nil => simp at h1
    | cons b bs =>
      cases i with
      | zero => simp [embedBits]
      | succ j =>
        simp only [embedBits, List.getD_cons_succ]
        exact ih bs j (by simpa using h1) (by simpa using h2)

theorem getD_embedBits_ge (buf bits : List Nat) (i : Nat) (h : bits.length ≤ i) :
    (embedBits buf bits).getD i 0 = buf.getD i 0 := by
  induction buf generalizing bits i with
  | nil => cases bits <;> rfl
  | cons v t ih =>
    cases bits with
    | nil => rfl
    | cons b bs =>
      cases i with
      | zero => simp at h
      | succ j =>
        simp only [embedBits, List.getD_cons_succ]
        exact ih bs j (by simpa using h)

theorem map_mod_embedBits (buf bits : List Nat)
    (hb : ∀ b ∈ bits, b < 2) (hl : bits.length ≤ buf.length) :
    (embedBits buf bits).map (fun v => v % 2) =
      bits ++ (buf.drop bits.length).map (fun v => v % 2) := by
  induction buf generalizing bits with
  | nil =>
    simp only [List.length_nil, Nat.le_zero, List.length_eq_zero] at hl
    subst hl
    rfl
  | cons v t ih =>
    cases bits with
    | nil => rfl
    | cons b bs =>
      have hb0 : b < 2 := hb b (by simp)
      simp only [embedBits, List.map_cons, List.length_cons, List.drop_succ_cons,
        List.cons_append, List.cons.injEq]
      constructor
      · simp only [setLsb]
        omega
      · exact ih bs (fun x hx => hb x (List.mem_cons_of_mem b hx)) (by simpa using hl)

/-! ### Facts about the delimiter search -/

theorem isPrefixOf_self (n : List Nat) : n.isPrefixOf n = true := by
  induction n with
  | nil => rfl
  | cons a t ih => simp [List.isPrefixOf, ih]

theorem isPrefixOf_append_left (n A g : List Nat) (h : n.isPrefixOf A = true) :
    n.isPrefixOf (A ++ g) = true := by
  induction n generalizing A with
  | nil => simp [List.isPrefixOf]
  | cons a as ih =>
    cases A with
    | nil => simp [List.isPrefixOf] at h
    | cons b bs =>
      simp only [List.isPrefixOf, List.cons_append, Bool.and_eq_true, beq_iff_eq] at h ⊢
      exact ⟨h.1, ih bs h.2⟩

theorem isPrefixOf_of_append (n A g : List Nat) (hlen : n.length ≤ A.length)
    (h : n.isPrefixOf (A ++ g) = true) : n.isPrefixOf A = true := by
  induction n generalizing A with
  | nil => simp [List.isPrefixOf]
  | cons a as ih =>
    cases A with
    | nil => simp at hlen
    | cons b bs =>
      simp only [List.isPrefixOf, List.cons_append, Bool.and_eq_true, beq_iff_eq] at h ⊢
      exact ⟨h.1, ih bs (by simpa using hlen) h.2⟩

theorem findOcc_min (hay needle : List Nat) (k : Nat)
    (hk : needle.isPrefixOf (hay.drop k) = true)
    (hmin : ∀ j, j < k → needle.isPrefixOf (hay.drop j) = false) :
    findOcc hay needle = some k := by
  induction hay generalizing k with
  | nil =>
    have hk0 : needle.isPrefixOf ([] : List Nat) = true := by simpa using hk
    cases k with
    | zero => simp [findOcc, hk0]
    | succ j =>
      have hj := hmin 0 (Nat.succ_pos j)
      simp only [List.drop_nil] at hj
      rw [hj] at hk0
      cases hk0
  | cons h t ih =>
    cases k with
    | zero =>
      simp only [List.drop_zero] at hk
      simp [findOcc, hk]
    | succ j =>
      have h0 := hmin 0 (Nat.succ_pos j)
      simp only [List.drop_zero] at h0
      have ht : findOcc t needle = some j :=
        ih j (by simpa using hk) (fun i hi => by simpa using hmin (i + 1) (by omega))
      simp [findOcc, h0, ht]

theorem findOcc_le (hay needle : List Nat) (m : Nat)
    (hm : needle.isPrefixOf (hay.drop m) = true) :
    ∃ k, findOcc hay needle = some k ∧ k ≤ m ∧
      needle.isPrefixOf (hay.drop k) = true ∧
      ∀ j, j < k → needle.isPrefixOf (hay.drop j) = false := by
  induction hay generalizing m with
  | nil =>
    have hm0 : needle.isPrefixOf ([] : List Nat) = true := by simpa using hm
    exact ⟨0, by simp [findOcc, hm0], Nat.zero_le m, by simpa using hm0,
      fun j hj => absurd hj (Nat.not_lt_zero j)⟩
  | cons h t ih =>
    by_cases h0 : needle.isPrefixOf (h :: t) = true
    · exact ⟨0, by simp [findOcc, h0], Nat.zero_le m, by simpa using h0,
        fun j hj => absurd hj (Nat.not_lt_zero j)⟩
    · have h0f : needle.isPrefixOf (h :: t) = false := by
        cases hb : needle.isPrefixOf (h :: t) with
        | true => exact absurd hb h0
        | false => rfl
      cases m with
      | zero =>
        simp only [List.drop_zero] at hm
        exact absurd hm h0
      | succ m' =>
        obtain ⟨k, hfind, hkm, hpre, hminp⟩ := ih m' (by simpa using hm)
        refine ⟨k + 1, by simp [findOcc, h0f, hfind], by omega, by simpa using hpre, ?_⟩
        intro j hj
        cases j with
        | zero => simpa using h0f
        | succ j' => simpa using hminp j' (by omega)


/-! ### The embed-extract round trip -/

theorem payload_bytes_lt (fileBytes extBytes : List Nat)
    (hfile : ∀ b ∈ fileBytes, b < 256) (hext : ∀ b ∈ extBytes, b < 256) :
    ∀ b ∈ build_payload fileBytes extBytes, b < 256 := by
  intro b hb
  rw [build_payload] at hb
  rcases List.mem_append.mp hb with h | h
  · rcases List.mem_append.mp h with h2 | h2
    · rcases List.mem_append.mp h2 with h3 | h3
      · simp only [packU16BE, List.mem_cons, List.not_mem_nil, or_false] at h3
        rcases h3 with h3 | h3 <;> omega
      · exact hext b h3
    · exact hfile b h2
  · simp only [delimiter, List.mem_cons, List.not_mem_nil, or_false] at h
    rcases h with h|h|h|h|h|h|h|h|h|h|h <;> omega

theorem drop_two_cons (a b : Nat) (l : List Nat) (n : Nat) :
    (a :: b :: l).drop (2 + n) = l.drop n := by
  have h2 : 2 + n = n + 1 + 1 := by omega
  rw [h2, List.drop_succ_cons, List.drop_succ_cons]

theorem length_build_payload (fileBytes extBytes : List Nat) :
    (build_payload fileBytes extBytes).length =
      2 + extBytes.length + fileBytes.length + 11 := by
  simp only [build_payload, packU16BE, delimiter, List.length_append, List.length_cons,
    List.length_nil]
  try omega

/-- Core of the round-trip analysis: extracting from a buffer produced by the
LSB write loop on a payload built from `(fileBytes, extBytes)` succeeds, and
the recovered file data is the prefix of `fileBytes ++ delimiter` that ends at
the first delimiter occurrence (which is at or before `fileBytes.length`). -/
theorem extract_embed_core (buffer fileBytes extBytes : List Nat)
    (hfile : ∀ b ∈ fileBytes, b < 256) (hext : ∀ b ∈ extBytes, b < 256)
    (hlen : extBytes.length ≤ 65535)
    (hcap : (build_payload fileBytes extBytes).length ≤ buffer.length / 8) :
    ∃ k, findOcc (fileBytes ++ delimiter) delimiter = some k ∧ k ≤ fileBytes.length ∧
      extract_data (embedBits buffer (bitsOfBytes (build_payload fileBytes extBytes))) =
        Except.ok ((fileBytes ++ delimiter).take k, extBytes) := by
  have hplen := length_build_payload fileBytes extBytes
  have hbitlen : (bitsOfBytes (build_payload fileBytes extBytes)).length =
      8 * (build_payload fileBytes extBytes).length := length_bitsOfBytes _
  have hbl : (bitsOfBytes (build_payload fileBytes extBytes)).length ≤ buffer.length := by
    omega
  have hmod := map_mod_embedBits buffer (bitsOfBytes (build_payload fileBytes extBytes))
    (bitsOfBytes_lt_two _) hbl
  obtain ⟨G, hbytes1⟩ : ∃ G, bytesOfBits
      ((embedBits buffer (bitsOfBytes (build_payload fileBytes extBytes))).map
        (fun v => v % 2)) =
      build_payload fileBytes extBytes ++ G :=
    ⟨_, by
      rw [hmod]
      exact bytesOfBits_append _ _ (payload_bytes_lt fileBytes extBytes hfile hext)⟩
  have hbytes : bytesOfBits
      ((embedBits buffer (bitsOfBytes (build_payload fileBytes extBytes))).map
        (fun v => v % 2)) =
      (extBytes.length / 256 % 256) :: (extBytes.length % 256) ::
        (extBytes ++ (fileBytes ++ (delimiter ++ G))) := by
    rw [hbytes1]
    simp only [build_payload, packU16BE, List.append_assoc, List.cons_append,
      List.nil_append]
  have hL : 256 * (extBytes.length / 256 % 256) + extBytes.length % 256 =
      extBytes.length := by omega
  have hocc : delimiter.isPrefixOf
      ((fileBytes ++ (delimiter ++ G)).drop fileBytes.length) = true := by
    rw [List.drop_left]
    exact isPrefixOf_append_left delimiter delimiter G (isPrefixOf_self delimiter)
  obtain ⟨k, hfind, hkm, hpre, hminp⟩ :=
    findOcc_le (fileBytes ++ (delimiter ++ G)) delimiter fileBytes.length hocc
  have hZA : fileBytes ++ (delimiter ++ G) = (fileBytes ++ delimiter) ++ G := by
    rw [List.append_assoc]
  have hAlen : (fileBytes ++ delimiter).length = fileBytes.length + 11 := by
    simp [delimiter]
  have hdropA : (fileBytes ++ (delimiter ++ G)).drop k =
      (fileBytes ++ delimiter).drop k ++ G := by
    rw [hZA]
    exact List.drop_append_of_le_length (by omega)
  have hpreA : delimiter.isPrefixOf ((fileBytes ++ delimiter).drop k) = true := by
    refine isPrefixOf_of_append delimiter _ G ?_ ?_
    · rw [List.length_drop, hAlen]
      have hd : delimiter.length = 11 := rfl
      rw [hd]
      omega
    · rw [← hdropA]
      exact hpre
  have hminA : ∀ j, j < k →
      delimiter.isPrefixOf ((fileBytes ++ delimiter).drop j) = false := by
    intro j hj
    cases hb : delimiter.isPrefixOf ((fileBytes ++ delimiter).drop j) with
    | false => rfl
    | true =>
      exfalso
      have hg := isPrefixOf_append_left delimiter _ G hb
      have hdropj : (fileBytes ++ (delimiter ++ G)).drop j =
          (fileBytes ++ delimiter).drop j ++ G := by
        rw [hZA]
        exact List.drop_append_of_le_length (by omega)
      rw [← hdropj] at hg
      rw [hminp j hj] at hg
      cases hg
  refine ⟨k, findOcc_min _ delimiter k hpreA hminA, hkm, ?_⟩
  have hgetD0 : ((extBytes.length / 256 % 256) :: (extBytes.length % 256) ::
      (extBytes ++ (fileBytes ++ (delimiter ++ G)))).getD 0 0 =
      extBytes.length / 256 % 256 := rfl
  have hgetD1 : ((extBytes.length / 256 % 256) :: (extBytes.length % 256) ::
      (extBytes ++ (fileBytes ++ (delimiter ++ G)))).getD 1 0 =
      extBytes.length % 256 := rfl
  have hlen2 : ((extBytes.length / 256 % 256) :: (extBytes.length % 256) ::
      (extBytes ++ (fileBytes ++ (delimiter ++ G)))).length =
      extBytes.length + fileBytes.length + 11 + G.length + 2 := by
    simp only [List.length_cons, List.length_append, delimiter, List.length_nil]
    try omega
  have hdrop2 : ∀ n : Nat, ((extBytes.length / 256 % 256) :: (extBytes.length % 256) ::
      (extBytes ++ (fileBytes ++ (delimiter ++ G)))).drop (2 + n) =
      (extBytes ++ (fileBytes ++ (delimiter ++ G))).drop n :=
    fun n => drop_two_cons _ _ _ n
  have hfrom : findFrom ((extBytes.length / 256 % 256) :: (extBytes.length % 256) ::
      (extBytes ++ (fileBytes ++ (delimiter ++ G)))) delimiter (2 + extBytes.length) =
      some (k + (2 + extBytes.length)) := by
    rw [findFrom, hdrop2 extBytes.length, List.drop_left, hfind]
    rfl
  have hslice1 : slice ((extBytes.length / 256 % 256) :: (extBytes.length % 256) ::
      (extBytes ++ (fileBytes ++ (delimiter ++ G)))) 2 (2 + extBytes.length) =
      extBytes := by
    rw [slice]
    have hd2 : ((extBytes.length / 256 % 256) :: (extBytes.length % 256) ::
        (extBytes ++ (fileBytes ++ (delimiter ++ G)))).drop 2 =
        extBytes ++ (fileBytes ++ (delimiter ++ G)) := rfl
    rw [hd2, Nat.add_sub_cancel_left, List.take_left]
  have hslice2 : slice ((extBytes.length / 256 % 256) :: (extBytes.length % 256) ::
      (extBytes ++ (fileBytes ++ (delimiter ++ G)))) (2 + extBytes.length)
      (k + (2 + extBytes.length)) = (fileBytes ++ delimiter).take k := by
    rw [slice, hdrop2 extBytes.length, List.drop_left]
    have h1 : k + (2 + extBytes.length) - (2 + extBytes.length) = k := by omega
    rw [h1, hZA]
    exact List.take_append_of_le_length (by omega)
  simp only [extract_data, hbytes]
  rw [hgetD0, hgetD1, hL, hlen2]
  rw [if_neg (by omega), if_neg (by omega)]
  rw [hfrom, hslice1]
  simp only [hslice2]

/-- Successful path of `hide_data`: with a supported channel count and a
payload within `max_bytes`, the result is the LSB-substituted buffer. -/
theorem hide_data_ok (channels pixels : Nat) (buffer fileBytes extBytes : List Nat)
    (hch : channels = 3 ∨ channels = 4)
    (hcap : (build_payload fileBytes extBytes).length ≤ pixels * channels / 8) :
    hide_data channels pixels buffer fileBytes extBytes =
      Except.ok (embedBits buffer (bitsOfBytes (build_payload fileBytes extBytes))) := by
  have h3 : calculate_capacity channels pixels =
      Except.ok ⟨pixels, channels, pixels * channels, pixels * channels / 8,
        (pixels * channels / 8 : Nat) - (2 + (delimiter.length : Int))⟩ := by
    unfold calculate_capacity
    rw [if_pos hch]
  simp only [hide_data, h3]
  rw [if_neg (by omega)]

/-! ### Claim theorems -/

/-- C1, counterexample: the round-trip claim fails as stated when the file
bytes themselves contain the delimiter.  Hiding the delimiter itself (with an
empty extension) in a 192-channel-byte buffer succeeds, but extraction
returns the empty byte string, not the original file bytes. -/
theorem c1_round_trip_counterexample :
    (match hide_data 3 64 (List.replicate 192 0) delimiter [] with
      | Except.ok stego => extract_data stego
      | Except.error e => Except.error e) =
      Except.ok (([] : List Nat), ([] : List Nat)) ∧
    ([] : List Nat) ≠ delimiter := by
  exact ⟨rfl, by decide⟩

/-- C1 (amended): for every file byte sequence in which the delimiter does not
occur before its framed position (in particular any file free of the
delimiter and of a tail-overlap with it), every extension of at most 65535
bytes, and every 3- or 4-channel buffer with enough pixels, extraction
recovers exactly the original `(file_bytes, extension)` pair. -/
theorem c1_round_trip (channels pixels : Nat) (buffer fileBytes extBytes : List Nat)
    (hch : channels = 3 ∨ channels = 4)
    (hbuf : buffer.length = pixels * channels)
    (hfile : ∀ b ∈ fileBytes, b < 256) (hext : ∀ b ∈ extBytes, b < 256)
    (hlen : extBytes.length ≤ 65535)
    (hcap : (build_payload fileBytes extBytes).length ≤ pixels * channels / 8)
    (hnodelim : ∀ j, j < fileBytes.length →
      delimiter.isPrefixOf ((fileBytes ++ delimiter).drop j) = false) :
    ∃ stego, hide_data channels pixels buffer fileBytes extBytes = Except.ok stego ∧
      extract_data stego = Except.ok (fileBytes, extBytes) := by
  have hocc1 : delimiter.isPrefixOf ((fileBytes ++ delimiter).drop fileBytes.length) =
      true := by
    rw [List.drop_left]
    exact isPrefixOf_self delimiter
  have hfound : findOcc (fileBytes ++ delimiter) delimiter = some fileBytes.length :=
    findOcc_min _ delimiter fileBytes.length hocc1 hnodelim
  obtain ⟨k, hk, hkm, hex⟩ := extract_embed_core buffer fileBytes extBytes hfile hext hlen
    (by rw [hbuf]; exact hcap)
  have hkeq : k = fileBytes.length := Option.some.inj (hk.symm.trans hfound)
  subst hkeq
  refine ⟨_, hide_data_ok channels pixels buffer fileBytes extBytes hch hcap, ?_⟩
  rw [hex, List.take_left]

/-- C1 witness: hiding the two bytes 65 66 with extension txt in a
144-channel-byte buffer round-trips. -/
theorem c1_round_trip_witness :
    ∃ stego, hide_data 3 48 (List.replicate 144 0) [65, 66] [116, 120, 116] =
        Except.ok stego ∧
      extract_data stego = Except.ok ([65, 66], [116, 120, 116]) :=
  c1_round_trip 3 48 (List.replicate 144 0) [65, 66] [116, 120, 116]
    (Or.inl rfl) (by decide) (by decide) (by decide) (by decide) (by decide) (by decide)

/-- C2: `embed` succeeds exactly when the payload fits in
`floor(len(buffer) / 8)` bytes; at the boundary it succeeds, one byte over it
fails with `CapacityExceeded` carrying required and available counts. -/
theorem c2_capacity_boundary (buffer payload : List Nat) :
    ((∃ out, embed buffer payload = Except.ok out) ↔
      payload.length ≤ buffer.length / 8) ∧
    (payload.length = buffer.length / 8 →
      embed buffer payload = Except.ok (embedBits buffer (bitsOfBytes payload))) ∧
    (payload.length = buffer.length / 8 + 1 →
      embed buffer payload =
        Except.error (StegoError.CapacityExceeded payload.length (buffer.length / 8))) := by
  have hok : ∀ (h : ¬ payload.length > buffer.length / 8),
      embed buffer payload = Except.ok (embedBits buffer (bitsOfBytes payload)) := by
    intro h
    simp only [embed, embedRun, if_neg h]
  have herr : ∀ (h : payload.length > buffer.length / 8),
      embed buffer payload =
        Except.error (StegoError.CapacityExceeded payload.length (buffer.length / 8)) := by
    intro h
    simp only [embed, embedRun, if_pos h]
  refine ⟨⟨?_, ?_⟩, ?_, ?_⟩
  · rintro ⟨out, hout⟩
    by_contra hgt
    rw [herr (by omega)] at hout
    cases hout
  · intro hle
    exact ⟨_, hok (by omega)⟩
  · intro heq
    exact hok (by omega)
  · intro heq
    exact herr (by omega)

/-- C2 witness: a 16-channel-byte buffer holds exactly 2 payload bytes; a
3-byte payload fails with `CapacityExceeded 3 2`. -/
theorem c2_capacity_boundary_witness :
    embed (List.replicate 16 0) [1, 2] =
        Except.ok (embedBits (List.replicate 16 0) (bitsOfBytes [1, 2])) ∧
    embed (List.replicate 16 0) [1, 2, 3] =
        Except.error (StegoError.CapacityExceeded 3 2) := by
  refine ⟨(c2_capacity_boundary (List.replicate 16 0) [1, 2]).2.1 (by decide), ?_⟩
  have h := (c2_capacity_boundary (List.replicate 16 0) [1, 2, 3]).2.2 (by decide)
  simpa using h

/-- C3: on a successful embed, each buffer element below the bit-sequence
length holds the corresponding payload bit (MSB first per byte) in its LSB via
`(buffer[i] & ~1) | bit[i]`, and every element at or beyond the bit-sequence
length is unchanged. -/
theorem c3_embedded_bits (buffer payload out : List Nat)
    (h : embed buffer payload = Except.ok out) :
    out.length = buffer.length ∧
    (∀ i, i < (bitsOfBytes payload).length →
      out.getD i 0 = setLsb (buffer.getD i 0) ((bitsOfBytes payload).getD i 0)) ∧
    (∀ i, (bitsOfBytes payload).length ≤ i → out.getD i 0 = buffer.getD i 0) := by
  have hle : ¬ payload.length > buffer.length / 8 := by
    by_contra hgt
    simp only [embed, embedRun, if_pos (by omega : payload.length > buffer.length / 8)] at h
    cases h
  have hout : out = embedBits buffer (bitsOfBytes payload) := by
    simp only [embed, embedRun, if_neg hle] at h
    exact (Except.ok.inj h).symm
  subst hout
  have hbits : (bitsOfBytes payload).length ≤ buffer.length := by
    rw [length_bitsOfBytes]
    omega
  exact ⟨length_embedBits buffer _,
    fun i hi => getD_embedBits_lt buffer _ i hi hbits,
    fun i hi => getD_embedBits_ge buffer _ i hi⟩

/-- C3 witness: embedding the byte 1 into eight bytes of value 7 rewrites the
last LSB to 1 and the first seven to 0. -/
theorem c3_embedded_bits_witness :
    ([6, 6, 6, 6, 6, 6, 6, 7] : List Nat).getD 7 0 =
      setLsb ((List.replicate 8 7).getD 7 0) ((bitsOfBytes [1]).getD 7 0) :=
  (c3_embedded_bits (List.replicate 8 7) [1] [6, 6, 6, 6, 6, 6, 6, 7] rfl).2.1 7 (by decide)

/-- C4: when the embed operation fails, the channel buffer after the call is
byte-for-byte the input buffer: the capacity check precedes any write. -/
theorem c4_no_mutation_on_failure (buffer payload : List Nat) (e : StegoError)
    (h : (embedRun buffer payload).1 = Except.error e) :
    (embedRun buffer payload).2 = buffer := by
  by_cases hc : payload.length > buffer.length / 8
  · simp [embedRun, if_pos hc]
  · simp only [embedRun, if_neg hc] at h
    cases h

/-- C4 witness: embedding one byte into an empty buffer fails and leaves the
buffer untouched. -/
theorem c4_no_mutation_on_failure_witness : (embedRun ([] : List Nat) [1]).2 = [] :=
  c4_no_mutation_on_failure [] [1] (StegoError.CapacityExceeded 1 0) rfl

/-- C5: capacity analysis rejects channel counts other than 3 or 4 with
`UnsupportedFormat`, and otherwise reports `total_bits = pixels * channels`,
`max_bytes = total_bits / 8` and
`usable_bytes = max_bytes - (2 + delimiter length)` (an integer, possibly
negative). -/
theorem c5_capacity_analysis (channels pixels : Nat) :
    (channels ≠ 3 → channels ≠ 4 →
      calculate_capacity channels pixels = Except.error StegoError.UnsupportedFormat) ∧
    (channels = 3 ∨ channels = 4 →
      calculate_capacity channels pixels =
        Except.ok ⟨pixels, channels, pixels * channels, pixels * channels / 8,
          (pixels * channels / 8 : Nat) - (2 + (delimiter.length : Int))⟩) := by
  constructor
  · intro h3 h4
    unfold calculate_capacity
    rw [if_neg (by tauto)]
  · intro hch
    unfold calculate_capacity
    rw [if_pos hch]

/-- C5 witness: 5 channels are rejected; a single RGB pixel yields
`max_bytes = 0` and a negative `usable_bytes = -13`. -/
theorem c5_capacity_analysis_witness :
    calculate_capacity 5 10 = Except.error StegoError.UnsupportedFormat ∧
    calculate_capacity 3 1 = Except.ok ⟨1, 3, 3, 0, -13⟩ := by
  refine ⟨(c5_capacity_analysis 5 10).1 (by decide) (by decide), ?_⟩
  exact ((c5_capacity_analysis 3 1).2 (Or.inl rfl)).trans rfl

/-- C6: extraction fails with `TruncatedData` when fewer than 2 bytes are
recovered (a buffer below 16 bits), and when fewer than `2 + ext_length`
bytes are available, `ext_length` being the big-endian value of the first two
recovered bytes. -/
theorem c6_truncated_data (buffer : List Nat) :
    (buffer.length < 16 → extract_data buffer = Except.error StegoError.TruncatedData) ∧
    ((bytesOfBits (buffer.map (fun v => v % 2))).length <
        2 + (256 * (bytesOfBits (buffer.map (fun v => v % 2))).getD 0 0 +
          (bytesOfBits (buffer.map (fun v => v % 2))).getD 1 0) →
      extract_data buffer = Except.error StegoError.TruncatedData) := by
  have hlen : (bytesOfBits (buffer.map (fun v => v % 2))).length = buffer.length / 8 := by
    rw [length_bytesOfBits, List.length_map]
  constructor
  · intro h16
    have h2 : (bytesOfBits (buffer.map (fun v => v % 2))).length < 2 := by omega
    simp only [extract_data]
    rw [if_pos h2]
  · intro hsh
    simp only [extract_data]
    by_cases h2 : (bytesOfBits (buffer.map (fun v => v % 2))).length < 2
    · rw [if_pos h2]
    · rw [if_neg h2, if_pos hsh]

/-- C6 witness: a 15-channel-byte buffer cannot yield the header; a
24-channel-byte buffer whose LSBs decode to the bytes 0 5 0 claims a 5-byte
extension but only 3 bytes exist. -/
theorem c6_truncated_data_witness :
    extract_data (List.replicate 15 1) = Except.error StegoError.TruncatedData ∧
    extract_data [0, 0, 0, 0, 0, 0, 0, 0, 0, 0, 0, 0, 0, 1, 0, 1, 0, 0, 0, 0, 0, 0, 0, 0] =
      Except.error StegoError.TruncatedData := by
  refine ⟨(c6_truncated_data (List.replicate 15 1)).1 (by decide),
    (c6_truncated_data _).2 (by decide)⟩

/-- C7: embedding a payload whose file bytes contain the delimiter verbatim
still succeeds, extraction does not fail, and the recovered file data is the
prefix of `file_bytes ++ delimiter` ending at the first delimiter occurrence
at or after the data start. -/
theorem c7_delimiter_collision (buffer fileBytes extBytes : List Nat)
    (hfile : ∀ b ∈ fileBytes, b < 256) (hext : ∀ b ∈ extBytes, b < 256)
    (hlen : extBytes.length ≤ 65535)
    (hcap : (build_payload fileBytes extBytes).length ≤ buffer.length / 8) :
    ∃ stego k, embed buffer (build_payload fileBytes extBytes) = Except.ok stego ∧
      findOcc (fileBytes ++ delimiter) delimiter = some k ∧ k ≤ fileBytes.length ∧
      extract_data stego = Except.ok ((fileBytes ++ delimiter).take k, extBytes) := by
  obtain ⟨k, hk, hkm, hex⟩ := extract_embed_core buffer fileBytes extBytes hfile hext hlen hcap
  refine ⟨_, k, ?_, hk, hkm, hex⟩
  simp only [embed, embedRun,
    if_neg (by omega : ¬ (build_payload fileBytes extBytes).length > buffer.length / 8)]

/-- C7 witness: hiding bytes AA ++ delimiter ++ BB (extension txt) in a
248-channel-byte buffer; extraction finds the delimiter first at offset 2 and
recovers exactly AA. -/
theorem c7_delimiter_collision_witness :
    (∃ stego k, embed (List.replicate 248 0)
          (build_payload ([65, 65] ++ delimiter ++ [66, 66]) [116, 120, 116]) =
        Except.ok stego ∧
      findOcc (([65, 65] ++ delimiter ++ [66, 66]) ++ delimiter) delimiter = some k ∧
      k ≤ ([65, 65] ++ delimiter ++ [66, 66]).length ∧
      extract_data stego =
        Except.ok ((([65, 65] ++ delimiter ++ [66, 66]) ++ delimiter).take k,
          [116, 120, 116])) ∧
    findOcc (([65, 65] ++ delimiter ++ [66, 66]) ++ delimiter) delimiter = some 2 ∧
    (([65, 65] ++ delimiter ++ [66, 66]) ++ delimiter).take 2 = [65, 65] := by
  refine ⟨c7_delimiter_collision (List.replicate 248 0) ([65, 65] ++ delimiter ++ [66, 66])
    [116, 120, 116] (by decide) (by decide) (by decide) (by decide), by decide, by decide⟩

/-- C8, counterexample: the cited utils helper `_bits_to_bytes` does not
discard trailing bits.  On an eleven-bit sequence it appends a short final
byte — the three-bit remainder 1 1 1 becomes the byte 7 — where the guarded
loop of `extract_data` on the same input discards the remainder. -/
theorem c8_counterexample :
    bits_to_bytes_utils (bitsOfByte 171 ++ [1, 1, 1]) = [171, 7] ∧
    bytesOfBits (bitsOfByte 171 ++ [1, 1, 1]) = [171] ∧
    ([171, 7] : List Nat) ≠ [171] :=
  ⟨rfl, rfl, by decide⟩

/-- C8 (amended): the regrouping loop of `SteganographyTool.extract_data`
(pass 2) packs the recovered bit sequence into bytes of exactly eight bits,
most-significant bit first (byte j is the base-2 value of bits 8j..8j+7), and
trailing bits that do not fill a byte are discarded — exactly
`floor(len(bits) / 8)` bytes, never a short final byte.  The utils helper
`_bits_to_bytes` regroups the same way on the complete groups but turns a
trailing incomplete group into a short final byte instead of discarding it. -/
theorem c8_bits_to_bytes (bits : List Nat) :
    (bytesOfBits bits).length = bits.length / 8 ∧
    (∀ j, j < bits.length / 8 →
      (bytesOfBits bits).getD j 0 = byteOfBits ((bits.drop (8 * j)).take 8)) ∧
    bits_to_bytes_utils bits =
      (if bits.length % 8 = 0 then bytesOfBits bits
       else bytesOfBits bits ++ [byteOfBits (bits.drop (8 * (bits.length / 8)))]) := by
  refine ⟨length_bytesOfBits bits, ?hj, ?hu⟩
  case hu =>
    rw [bits_to_bytes_utils_spec]
    by_cases hc : bits.length % 8 = 0
    · rw [if_pos hc, if_pos hc, List.append_nil]
    · rw [if_neg hc, if_neg hc]
  case hj =>
    induction bits using bytesOfBits.induct with
    | case1 b0 b1 b2 b3 b4 b5 b6 b7 rest ih =>
      intro j hj
      cases j with
      | zero => rfl
      | succ j' =>
        simp only [List.length_cons] at hj
        have hj' : j' < rest.length / 8 := by omega
        have hstep : (b0 :: b1 :: b2 :: b3 :: b4 :: b5 :: b6 :: b7 :: rest).drop (8 * (j' + 1)) =
            rest.drop (8 * j') := by
          have h8 : 8 * (j' + 1) = 8 + 8 * j' := by ring
          rw [h8, ← List.drop_drop]
          rfl
        rw [hstep]
        simp only [bytesOfBits, List.getD_cons_succ]
        exact ih j' hj'
    | case2 bits h =>
      intro j hj
      have h8 : bits.length < 8 := by
        clear hj
        rcases bits with _|⟨a,_|⟨b,_|⟨c,_|⟨d,_|⟨e,_|⟨f,_|⟨g,_|⟨i,t⟩⟩⟩⟩⟩⟩⟩⟩ <;> simp_all
        exact absurd rfl (h a b c d e f g i t rfl rfl rfl rfl rfl rfl rfl rfl)
      omega

/-- C8 witness: on eleven bits the guarded loop yields the single byte 171
(the three trailing bits dropped), while the utils helper appends the short
final byte made from the remainder. -/
theorem c8_bits_to_bytes_witness :
    ((bytesOfBits (bitsOfByte 171 ++ [1, 1, 1])).getD 0 0 =
      byteOfBits (((bitsOfByte 171 ++ [1, 1, 1]).drop (8 * 0)).take 8)) ∧
    bits_to_bytes_utils (bitsOfByte 171 ++ [1, 1, 1]) =
      (if (bitsOfByte 171 ++ [1, 1, 1]).length % 8 = 0
       then bytesOfBits (bitsOfByte 171 ++ [1, 1, 1])
       else bytesOfBits (bitsOfByte 171 ++ [1, 1, 1]) ++
         [byteOfBits ((bitsOfByte 171 ++ [1, 1, 1]).drop
           (8 * ((bitsOfByte 171 ++ [1, 1, 1]).length / 8)))]) :=
  ⟨(c8_bits_to_bytes (bitsOfByte 171 ++ [1, 1, 1])).2.1 0 (by decide),
    (c8_bits_to_bytes (bitsOfByte 171 ++ [1, 1, 1])).2.2⟩

/-- C10: the public operations signal failure only through their return
value: `calculate_capacity` returns `None` exactly when its body raised,
`hide_data` returns `False` exactly when its body raised or bailed out, and
`extract_data` returns `None` exactly when its body raised. -/
theorem c10_errors_returned (channels pixels : Nat)
    (buffer fileBytes extBytes buf2 : List Nat) :
    (calculate_capacity_caught channels pixels = none ↔
      ∃ e, calculate_capacity channels pixels = Except.error e) ∧
    (hide_data_caught channels pixels buffer fileBytes extBytes = false ↔
      ∃ e, hide_data channels pixels buffer fileBytes extBytes = Except.error e) ∧
    (extract_data_caught buf2 = none ↔ ∃ e, extract_data buf2 = Except.error e) := by
  refine ⟨?_, ?_, ?_⟩
  · cases h : calculate_capacity channels pixels with
    | ok v => simp [calculate_capacity_caught, h]
    | error e => simp [calculate_capacity_caught, h]
  · cases h : hide_data channels pixels buffer fileBytes extBytes with
    | ok v => simp [hide_data_caught, h]
    | error e => simp [hide_data_caught, h]
  · cases h : extract_data buf2 with
    | ok v => simp [extract_data_caught, h]
    | error e => simp [extract_data_caught, h]

/-- C10 witness: an unsupported channel count yields `None` from the public
capacity analysis, and an empty buffer yields `None` from the public
extraction. -/
theorem c10_errors_returned_witness :
    calculate_capacity_caught 5 1 = none ∧ extract_data_caught [] = none :=
  ⟨(c10_errors_returned 5 1 [] [] [] []).1.mpr ⟨_, rfl⟩,
    (c10_errors_returned 5 1 [] [] [] []).2.2.mpr ⟨_, rfl⟩⟩

/-! ### Extension handling (claim C9) -/

theorem rfindChar_none_spec (c : Char) : ∀ (p : List Char), rfindChar p c = none →
    ∀ j, j < p.length → p.getD j ' ' ≠ c := by
  intro p
  induction p with
  | nil =>
    intro _ j hj
    simp at hj
  | cons a t ih =>
    intro h j hj
    simp only [rfindChar] at h
    cases hr : rfindChar t c with
    | some r =>
      rw [hr] at h
      cases h
    | none =>
      rw [hr] at h
      by_cases hac : a = c
      · rw [if_pos hac] at h
        cases h
      · rw [if_neg hac] at h
        cases j with
        | zero => simpa using hac
        | succ j' =>
          simp only [List.getD_cons_succ]
          exact ih hr j' (by simpa using hj)

theorem rfindChar_some_spec (c : Char) : ∀ (p : List Char) (i : Nat),
    rfindChar p c = some i →
    i < p.length ∧ p.getD i ' ' = c ∧
      ∀ j, i < j → j < p.length → p.getD j ' ' ≠ c := by
  intro p
  induction p with
  | nil =>
    intro i h
    cases h
  | cons a t ih =>
    intro i h
    simp only [rfindChar] at h
    cases hr : rfindChar t c with
    | some r =>
      rw [hr] at h
      have hi : i = r + 1 := (Option.some.inj h).symm
      subst hi
      obtain ⟨h1, h2, h3⟩ := ih r hr
      refine ⟨by simp only [List.length_cons]; omega, by simpa using h2, ?_⟩
      intro j hj hjl
      cases j with
      | zero => omega
      | succ j' =>
        simp only [List.getD_cons_succ]
        exact h3 j' (by omega) (by simpa using hjl)
    | none =>
      rw [hr] at h
      by_cases hac : a = c
      · rw [if_pos hac] at h
        have hi : i = 0 := (Option.some.inj h).symm
        subst hi
        refine ⟨by simp, by simpa using hac, ?_⟩
        intro j hj hjl
        cases j with
        | zero => omega
        | succ j' =>
          simp only [List.getD_cons_succ]
          exact rfindChar_none_spec c t hr j' (by simpa using hjl)
      · rw [if_neg hac] at h
        cases h

theorem splitextExt_shape (p : List Char) :
    splitextExt p = [] ∨
    ∃ d, rfindChar p '.' = some d ∧ splitextExt p = p.drop d := by
  cases hd : rfindChar p '.' with
  | none =>
    left
    simp [splitextExt, hd]
  | some d =>
    simp only [splitextExt, hd]
    split
    · split
      · exact Or.inr ⟨d, rfl, rfl⟩
      · exact Or.inl rfl
    · exact Or.inl rfl

/-- The extension returned by splitext starts with the dot it was split at. -/
theorem splitextExt_head (p : List Char) (h : splitextExt p ≠ []) :
    (splitextExt p).headD ' ' = '.' := by
  rcases splitextExt_shape p with h0 | ⟨d, hd, he⟩
  · exact absurd h0 h
  · obtain ⟨hlt, hget, _⟩ := rfindChar_some_spec '.' p d hd
    rw [he, List.drop_eq_getElem_cons hlt, List.headD_cons, ← List.getD_eq_getElem p ' ' hlt]
    exact hget

/-- Splitext splits at the last dot: past its first character the extension
contains no dot. -/
theorem splitextExt_tail_no_dot (p : List Char) : '.' ∉ (splitextExt p).drop 1 := by
  rcases splitextExt_shape p with h0 | ⟨d, hd, he⟩
  · rw [h0]
    simp
  · rw [he, List.drop_drop]
    obtain ⟨hlt, hget, hafter⟩ := rfindChar_some_spec '.' p d hd
    intro hmem
    obtain ⟨j, hj, hjeq⟩ := List.getElem_of_mem hmem
    have hjlen : d + 1 + j < p.length := by
      rw [List.length_drop] at hj
      omega
    have hgot : p.getD (d + 1 + j) ' ' = '.' := by
      rw [List.getD_eq_getElem p ' ' hjlen, ← List.getElem_drop p]
      exact hjeq
    exact hafter (d + 1 + j) (by omega) hjlen hgot

theorem char_eq_dot_of_toNat (c : Char) (h : c.toNat = 46) : c = '.' := by
  apply Char.ext
  apply UInt32.ext
  simpa [Char.toNat] using h

theorem utf8EncodeChar_ne_dot (n : Nat) (hn : n ≠ 46) :
    ∀ b ∈ utf8EncodeChar n, b ≠ 46 := by
  intro b hb
  rw [utf8EncodeChar] at hb
  split at hb
  · simp only [List.mem_cons, List.not_mem_nil, or_false] at hb
    omega
  · split at hb
    · simp only [List.mem_cons, List.not_mem_nil, or_false] at hb
      rcases hb with hb | hb <;> omega
    · split at hb
      · simp only [List.mem_cons, List.not_mem_nil, or_false] at hb
        rcases hb with hb | hb | hb <;> omega
      · simp only [List.mem_cons, List.not_mem_nil, or_false] at hb
        rcases hb with hb | hb | hb | hb <;> omega

theorem utf8Encode_ne_dot (l : List Char) (h : '.' ∉ l) :
    ∀ b ∈ utf8Encode l, b ≠ 46 := by
  induction l with
  | nil => simp [utf8Encode]
  | cons c tl ih =>
    intro b hb
    simp only [utf8Encode] at hb
    rcases List.mem_append.mp hb with hb | hb
    · have hcne : c.toNat ≠ 46 := by
        intro he
        exact h (by rw [char_eq_dot_of_toNat c he]; exact List.mem_cons_self _ _)
      exact utf8EncodeChar_ne_dot c.toNat hcne b hb
    · exact ih (fun hm => h (List.mem_cons_of_mem c hm)) b hb

/-- C9, counterexample: for the path f.txt, `SteganographyTool.hide_data`
places the UTF-8 bytes of .txt in the payload's extension field (leading dot
byte 46 included), which differs from the dot-stripped encoding txt that the
claim requires. -/
theorem c9_counterexample :
    utf8Encode (tool_ext ['f', '.', 't', 'x', 't']) = [46, 116, 120, 116] ∧
    utf8Encode (hide_ext ['f', '.', 't', 'x', 't']) = [116, 120, 116] ∧
    ([46, 116, 120, 116] : List Nat) ≠ [116, 120, 116] :=
  ⟨rfl, rfl, by decide⟩

/-- C9 (amended): in `steganography_hide.py` the leading dot is stripped
before the payload is built, so the extension field never contains the dot
byte 46; in `SteganographyTool.hide_data` the dot is not stripped, so whenever
the path has a nonempty extension the embedded extension field begins with the
dot byte 46. -/
theorem c9_extension_dot (p : List Char) :
    (∀ b ∈ utf8Encode (hide_ext p), b ≠ 46) ∧
    (splitextExt p = [] ∨ (utf8Encode (tool_ext p)).headD 0 = 46) := by
  constructor
  · exact utf8Encode_ne_dot (hide_ext p) (splitextExt_tail_no_dot p)
  · by_cases h : splitextExt p = []
    · exact Or.inl h
    · right
      obtain ⟨c, tl, hct⟩ : ∃ c tl, splitextExt p = c :: tl := by
        cases hspl : splitextExt p with
        | nil => exact absurd hspl h
        | cons c tl => exact ⟨c, tl, rfl⟩
      have hh := splitextExt_head p h
      rw [hct, List.headD_cons] at hh
      rw [tool_ext, hct, hh]
      rfl

/-- C9 witness: applied to the path f.txt — the dot-stripped field is
dot-free while the tool's embedded field begins with byte 46. -/
theorem c9_extension_dot_witness :
    (116 : Nat) ≠ 46 ∧
    (splitextExt ['f', '.', 't', 'x', 't'] = [] ∨
      (utf8Encode (tool_ext ['f', '.', 't', 'x', 't'])).headD 0 = 46) :=
  ⟨(c9_extension_dot ['f', '.', 't', 'x', 't']).1 116 (by decide),
    (c9_extension_dot ['f', '.', 't', 'x', 't']).2⟩

end Stego
